import Mathlib

/-!
Verification of the canonical header encoder and bounded-marshaling layer of
the noir-ethereum repository (src/src/header.ts), via a shallow embedding.

Bytes are modelled as lists of naturals (each entry a byte value < 256 where
the source guarantees it).  JavaScript `bigint` values are modelled as `Nat`.
Chain-client fields that the source checks for presence (`x !== null`, or a
truthiness test on a hex string that is `undefined` when absent) are modelled
as `Option`; `none` models the absent (`null`/`undefined`) value.

The one external fetch (`await publicClient.getBlock(opts)`) is externalized:
`getBlockHeader` here is the pure remainder of the source function, taking the
fetched block record as an input value.
-/

set_option maxRecDepth 8000

namespace NoirEthereum

/-- A byte string: a list of byte values. -/
abbrev Bytes := List ℕ

/-- Fuel-indexed big-endian digit expansion (structural recursion on the
fuel, so that concrete values reduce by evaluation); `beBytes` below supplies
enough fuel. -/
def beBytesAux : ℕ → ℕ → Bytes
  | 0, _ => []
  | fuel + 1, n => if n = 0 then [] else beBytesAux fuel (n / 256) ++ [n % 256]

/-- Minimal big-endian digit expansion of a natural number, most significant
byte first; `0` maps to the empty list.  This is the byte expansion underlying
viem's `toBytes(bigint)` (which additionally maps `0` to a single zero byte,
see `toBytes` below). -/
def beBytes (n : ℕ) : Bytes :=
  beBytesAux n n

/-- viem's `toBytes` on a `bigint`: the shortest big-endian byte string, with
`0` mapping to the single byte `0x00` (via the hex string `0x0`). -/
def toBytes (n : ℕ) : Bytes :=
  if n = 0 then [0] else beBytes n

/-- `toRlpBytes` from src/src/header.ts lines 22-25: the RLP integer byte
rule — `0` becomes the empty byte string, any other value its minimal
big-endian bytes. -/
def toRlpBytes (val : ℕ) : Bytes :=
  if val = 0 then [] else toBytes val

/-- Big-endian value of a byte string (the left fold the chain's encoding is
based on); used to state that `toRlpBytes` is a faithful, minimal encoding. -/
def fromBE (l : Bytes) : ℕ :=
  l.foldl (fun a d => 256 * a + d) 0

/-- viem's `pad(value, { size })` with the default left direction: left-pad
with zero bytes up to `size`.  (viem throws when the input is longer than
`size`; the source only calls it on the 8-byte nonce, so statements about it
carry the corresponding length bound.) -/
def pad (size : ℕ) (b : Bytes) : Bytes :=
  List.replicate (size - b.length) 0 ++ b

/-- RLP encoding of one byte string (viem `toRlp`, item case): a single byte
below `0x80` stands for itself; otherwise a length prefix is prepended
(short form below 56 bytes, long form with a big-endian length otherwise). -/
def rlpEncodeBytes (b : Bytes) : Bytes :=
  match b with
  | [d] => if d < 128 then [d] else [129, d]
  | _ =>
    if b.length < 56 then (128 + b.length) :: b
    else (183 + (beBytes b.length).length) :: (beBytes b.length ++ b)

/-- RLP encoding of a flat list of byte strings (viem `toRlp`, list case):
each item is encoded, the encodings are concatenated, and the concatenation
is length-prefixed. -/
def rlpEncodeList (items : List Bytes) : Bytes :=
  let payload := (items.map rlpEncodeBytes).flatten
  if payload.length < 56 then (192 + payload.length) :: payload
  else (247 + (beBytes payload.length).length) :: (beBytes payload.length ++ payload)

/-- The fetched block record, as delivered by the chain client (viem
`getBlock`).  Fixed-width fields are byte strings; integer fields are `Nat`;
fields the source tests for presence are `Option` (`none` = `null` /
`undefined` as reported by the client). -/
structure Block where
  parentHash : Bytes
  sha3Uncles : Bytes
  miner : Bytes
  stateRoot : Bytes
  transactionsRoot : Bytes
  receiptsRoot : Bytes
  logsBloom : Option Bytes
  difficulty : ℕ
  number : Option ℕ
  gasLimit : ℕ
  gasUsed : ℕ
  timestamp : ℕ
  extraData : Bytes
  mixHash : Bytes
  nonce : Option Bytes
  baseFeePerGas : Option ℕ
  withdrawalsRoot : Option Bytes
  blobGasUsed : Option ℕ
  excessBlobGas : Option ℕ
  parentBeaconBlockRoot : Option Bytes
  requestsHash : Option Bytes
  hash : Option Bytes

/-- `headerData` from src/src/header.ts lines 34-62: the ordered field list,
with conditional tail entries marked `undefined` (here `none`) and then
filtered out (`.filter((x) => x !== undefined)`, here `filterMap id`). -/
def headerData (block : Block) : List Bytes :=
  ([some block.parentHash,
    some block.sha3Uncles,
    some block.miner,
    some block.stateRoot,
    some block.transactionsRoot,
    some block.receiptsRoot,
    some (block.logsBloom.getD (List.replicate 256 0)),
    some (toRlpBytes block.difficulty),
    some (toRlpBytes (block.number.getD 0)),
    some (toRlpBytes block.gasLimit),
    some (toRlpBytes block.gasUsed),
    some (toRlpBytes block.timestamp),
    some block.extraData,
    some block.mixHash,
    some (match block.nonce with
          | some n => pad 8 n
          | none => List.replicate 8 0),
    block.baseFeePerGas.map toRlpBytes,
    block.withdrawalsRoot,
    block.blobGasUsed.map toRlpBytes,
    block.excessBlobGas.map toRlpBytes,
    block.parentBeaconBlockRoot,
    block.requestsHash] : List (Option Bytes)).filterMap id

/-- `headerRlp` from src/src/header.ts line 64: the RLP list encoding of the
assembled field list. -/
def headerRlp (block : Block) : Bytes :=
  rlpEncodeList (headerData block)

/-- Modelled from the spec: `parseBytes32` lives in src/helpers.ts, which is
not under src/.  The spec describes each summary digest as a required 32-byte
fixed value and says the `hash` summary field defaults to an all-zero digest
when the source reports none (the code passes the placeholder `0x0`, one zero
byte); accordingly the parse is modelled as left-padding with zero bytes to
32. -/
def parseBytes32 (b : Bytes) : Bytes :=
  List.replicate (32 - b.length) 0 ++ b

/-- The ad hoc discriminated optional value `{_is_some, _value}` built at
src/src/header.ts lines 72-77. -/
structure OptionalHash where
  _is_some : Bool
  _value : Bytes

/-- The derived circuit summary record built at src/src/header.ts lines
66-78. -/
structure HeaderSummary where
  number : ℕ
  hash : Bytes
  state_root : Bytes
  transactions_root : Bytes
  receipts_root : Bytes
  withdrawals_root : OptionalHash

/-- The summary (`header` object) of src/src/header.ts lines 66-78.  Note the
absent-withdrawals branch stores `new FixedSizeArray(0, [])`, i.e. an empty
byte array, as the `_value`. -/
def blockHeaderSummary (block : Block) : HeaderSummary :=
  { number := block.number.getD 0
    hash := parseBytes32 (block.hash.getD [0])
    state_root := parseBytes32 block.stateRoot
    transactions_root := parseBytes32 block.transactionsRoot
    receipts_root := parseBytes32 block.receiptsRoot
    withdrawals_root :=
      match block.withdrawalsRoot with
      | some w => { _is_some := true, _value := parseBytes32 w }
      | none => { _is_some := false, _value := [] } }

/-- The bounded, zero-padded byte buffer: stored bytes plus the recorded
logical length. -/
structure BoundedVec where
  data : Bytes
  len : ℕ

/-- Modelled from the spec: the `BoundedVec` constructor comes from the
external `@zkpersona/noir-helpers` package, not under src/.  Per the spec's
capacity law, packing a payload longer than the capacity `N` fails (no
partial buffer, modelled as `none`); otherwise the payload is stored followed
by `N - len` zero bytes, with the payload length recorded. -/
def BoundedVec.pack (N : ℕ) (b : Bytes) : Option BoundedVec :=
  if b.length > N then none
  else some { data := b ++ List.replicate (N - b.length) 0, len := b.length }

/-- Modelled from the spec: `unpack` returns exactly the first
`logical length` stored bytes; the padding is never exposed. -/
def BoundedVec.unpack (v : BoundedVec) : Bytes :=
  v.data.take v.len

/-- The result shape returned from src/src/header.ts lines 80-84. -/
structure HeaderCircuitInput where
  chain_id : ℕ
  block_header_partial : HeaderSummary
  block_header_rlp : Option BoundedVec

/-- `getBlockHeader` from src/src/header.ts lines 27-85, with the one network
fetch externalized: `chainId` models `publicClient.chain?.id` (defaulted to 1)
and `block` is the fetched record. -/
def getBlockHeader (chainId : Option ℕ) (block : Block) : HeaderCircuitInput :=
  { chain_id := chainId.getD 1
    block_header_partial := blockHeaderSummary block
    block_header_rlp := BoundedVec.pack 742 (headerRlp block) }

/-- A concrete fetched block record (pre-London shape: no tail fields, no
reported hash, no nonce, no logs bloom), used to evaluate the definitions. -/
def sampleBlock : Block :=
  { parentHash := List.replicate 32 17
    sha3Uncles := List.replicate 32 2
    miner := List.replicate 20 3
    stateRoot := List.replicate 32 4
    transactionsRoot := List.replicate 32 5
    receiptsRoot := List.replicate 32 6
    logsBloom := none
    difficulty := 0
    number := some 19000000
    gasLimit := 30000000
    gasUsed := 12000000
    timestamp := 1700000000
    extraData := []
    mixHash := List.replicate 32 7
    nonce := none
    baseFeePerGas := none
    withdrawalsRoot := none
    blobGasUsed := none
    excessBlobGas := none
    parentBeaconBlockRoot := none
    requestsHash := none
    hash := none }

/-! ### Arithmetic facts about the minimal big-endian expansion -/

theorem beBytesAux_congr (f1 : ℕ) :
    ∀ f2 n, n ≤ f1 → n ≤ f2 → beBytesAux f1 n = beBytesAux f2 n := by
  induction f1 with
  | zero =>
    intro f2 n h1 _
    have hn : n = 0 := by omega
    cases f2 <;> simp [beBytesAux, hn]
  | succ g ih =>
    intro f2 n h1 h2
    cases f2 with
    | zero =>
      have hn : n = 0 := by omega
      simp [beBytesAux, hn]
    | succ g2 =>
      by_cases hn : n = 0
      · simp [beBytesAux, hn]
      · have hlt : n / 256 < n := Nat.div_lt_self (Nat.pos_of_ne_zero hn) (by omega)
        simp only [beBytesAux, hn, if_false]
        rw [ih g2 (n / 256) (by omega) (by omega)]

theorem beBytes_zero : beBytes 0 = [] := rfl

theorem beBytes_eq (n : ℕ) :
    beBytes n = if n = 0 then [] else beBytes (n / 256) ++ [n % 256] := by
  by_cases hn : n = 0
  · simp [hn, beBytes_zero]
  · obtain ⟨k, rfl⟩ : ∃ k, n = k + 1 := ⟨n - 1, by omega⟩
    have hlt : (k + 1) / 256 < k + 1 := Nat.div_lt_self (by omega) (by omega)
    simp only [hn, if_false]
    show beBytesAux (k + 1) (k + 1) = _
    simp only [beBytesAux, hn, if_false]
    rw [beBytesAux_congr k ((k + 1) / 256) ((k + 1) / 256) (by omega) (by omega)]
    rfl

theorem fromBE_nil : fromBE [] = 0 := rfl

theorem fromBE_snoc (xs : Bytes) (d : ℕ) :
    fromBE (xs ++ [d]) = 256 * fromBE xs + d := by
  simp [fromBE, List.foldl_append]

theorem fromBE_beBytes (n : ℕ) : fromBE (beBytes n) = n := by
  induction n using Nat.strong_induction_on with
  | _ n ih =>
    by_cases h : n = 0
    · simp [h, beBytes_zero, fromBE_nil]
    · rw [beBytes_eq, if_neg h, fromBE_snoc,
        ih (n / 256) (Nat.div_lt_self (Nat.pos_of_ne_zero h) (by omega))]
      omega

theorem beBytes_head_pos (n : ℕ) :
    n ≠ 0 → ∃ d t, beBytes n = d :: t ∧ d ≠ 0 := by
  induction n using Nat.strong_induction_on with
  | _ n ih =>
    intro h
    rw [beBytes_eq, if_neg h]
    by_cases h2 : n < 256
    · have h0 : n / 256 = 0 := Nat.div_eq_of_lt h2
      refine ⟨n % 256, [], ?_, ?_⟩
      · rw [h0, beBytes_zero]; rfl
      · rw [Nat.mod_eq_of_lt h2]; exact h
    · have hq : n / 256 ≠ 0 := by
        have := Nat.div_pos (Nat.le_of_not_lt h2) (by omega)
        omega
      obtain ⟨d, t, he, hd⟩ :=
        ih (n / 256) (Nat.div_lt_self (Nat.pos_of_ne_zero h) (by omega)) hq
      exact ⟨d, t ++ [n % 256], by rw [he]; rfl, hd⟩

theorem beBytes_digits_lt (n : ℕ) : ∀ d ∈ beBytes n, d < 256 := by
  induction n using Nat.strong_induction_on with
  | _ n ih =>
    by_cases h : n = 0
    · simp [h, beBytes_zero]
    · rw [beBytes_eq, if_neg h]
      intro d hd
      rcases List.mem_append.1 hd with h1 | h1
      · exact ih (n / 256) (Nat.div_lt_self (Nat.pos_of_ne_zero h) (by omega)) d h1
      · have : d = n % 256 := by simpa using h1
        subst this
        exact Nat.mod_lt n (by omega)

theorem beBytes_length_pos (n : ℕ) (h : n ≠ 0) : (beBytes n).length ≠ 0 := by
  obtain ⟨d, t, he, _⟩ := beBytes_head_pos n h
  rw [he]
  simp

theorem pow_le_of_beBytes (n : ℕ) :
    n ≠ 0 → 256 ^ ((beBytes n).length - 1) ≤ n := by
  induction n using Nat.strong_induction_on with
  | _ n ih =>
    intro h
    rw [beBytes_eq, if_neg h]
    by_cases h2 : n < 256
    · have h0 : n / 256 = 0 := Nat.div_eq_of_lt h2
      rw [h0, beBytes_zero]
      simpa using Nat.pos_of_ne_zero h
    · have hq : n / 256 ≠ 0 := by
        have := Nat.div_pos (Nat.le_of_not_lt h2) (by omega)
        omega
      have hlen := beBytes_length_pos (n / 256) hq
      have ihq := ih (n / 256) (Nat.div_lt_self (Nat.pos_of_ne_zero h) (by omega)) hq
      rw [List.length_append, List.length_singleton, Nat.add_sub_cancel]
      have hsplit : 256 ^ (beBytes (n / 256)).length =
          256 * 256 ^ ((beBytes (n / 256)).length - 1) := by
        obtain ⟨k, hk⟩ : ∃ k, (beBytes (n / 256)).length = k + 1 :=
          ⟨(beBytes (n / 256)).length - 1, by omega⟩
        rw [hk, pow_succ, Nat.add_sub_cancel, Nat.mul_comm]
      calc 256 ^ (beBytes (n / 256)).length
          = 256 * 256 ^ ((beBytes (n / 256)).length - 1) := hsplit
        _ ≤ 256 * (n / 256) := Nat.mul_le_mul_left 256 ihq
        _ ≤ n := by
            have := Nat.div_mul_le_self n 256
            omega

theorem fromBE_lt (l : Bytes) :
    (∀ d ∈ l, d < 256) → fromBE l < 256 ^ l.length := by
  induction l using List.reverseRecOn with
  | nil => intro _; simp [fromBE_nil]
  | append_singleton xs d ih =>
    intro h
    have hd : d < 256 := h d (by simp)
    have hxs : fromBE xs < 256 ^ xs.length := ih fun e he => h e (by simp [he])
    rw [fromBE_snoc, List.length_append, List.length_singleton, pow_succ]
    omega

theorem beBytes_length_min (n : ℕ) (l : Bytes)
    (hl : ∀ d ∈ l, d < 256) (he : fromBE l = n) :
    (beBytes n).length ≤ l.length := by
  by_cases h : n = 0
  · simp [h, beBytes_zero]
  · have h1 := pow_le_of_beBytes n h
    have h2 : n < 256 ^ l.length := he ▸ fromBE_lt l hl
    have h3 := beBytes_length_pos n h
    have h4 : 256 ^ ((beBytes n).length - 1) < 256 ^ l.length :=
      Nat.lt_of_le_of_lt h1 h2
    have h5 : (beBytes n).length - 1 < l.length :=
      (Nat.pow_lt_pow_iff_right (by omega)).1 h4
    omega

/-! ### Claim theorems -/

/-- Claim C3: for every block, the canonical encoding is built as the fixed
ordered sequence of the fifteen mandatory fields (parent hash, ommers hash,
miner, state root, transactions root, receipts root, logs bloom, difficulty,
number, gas limit, gas used, timestamp, extra data, mix hash, nonce), then
the defined tail fields (base fee, withdrawals root, blob gas used, excess
blob gas, parent beacon root, requests hash) in that order with absent tail
fields omitted rather than zero-filled, and this list is passed through the
length-prefixed RLP list-encoding rule to give the contiguous `headerRlp`
buffer. -/
theorem c3_canonical_field_sequence (block : Block) :
    headerData block =
      [block.parentHash, block.sha3Uncles, block.miner, block.stateRoot,
       block.transactionsRoot, block.receiptsRoot,
       block.logsBloom.getD (List.replicate 256 0),
       toRlpBytes block.difficulty, toRlpBytes (block.number.getD 0),
       toRlpBytes block.gasLimit, toRlpBytes block.gasUsed,
       toRlpBytes block.timestamp, block.extraData, block.mixHash,
       (match block.nonce with
        | some n => pad 8 n
        | none => List.replicate 8 0)] ++
      ([block.baseFeePerGas.map toRlpBytes, block.withdrawalsRoot,
        block.blobGasUsed.map toRlpBytes, block.excessBlobGas.map toRlpBytes,
        block.parentBeaconBlockRoot, block.requestsHash] :
        List (Option Bytes)).filterMap id ∧
    headerRlp block = rlpEncodeList (headerData block) := by
  refine ⟨?_, rfl⟩
  simp [headerData, List.filterMap_cons]

/-- Claim C4: the minimal-big-endian integer rule maps 0 to the empty byte
string, 1 to the single byte 0x01 and 256 to 0x01 0x00, and in general maps
every unsigned integer to its shortest big-endian representation: the bytes
evaluate back to the integer, the leading byte is nonzero for nonzero values,
every digit is a byte, and no byte string evaluating to the same integer is
shorter. -/
theorem c4_minimal_big_endian_integer_rule (n : ℕ) :
    toRlpBytes 0 = [] ∧ toRlpBytes 1 = [1] ∧ toRlpBytes 256 = [1, 0] ∧
    fromBE (toRlpBytes n) = n ∧
    (n ≠ 0 → ∃ d t, toRlpBytes n = d :: t ∧ d ≠ 0) ∧
    (∀ d ∈ toRlpBytes n, d < 256) ∧
    (∀ l : Bytes, (∀ d ∈ l, d < 256) → fromBE l = n →
      (toRlpBytes n).length ≤ l.length) := by
  have hrlp : ∀ m : ℕ, toRlpBytes m = beBytes m := by
    intro m
    by_cases h : m = 0
    · simp [h, toRlpBytes, beBytes_zero]
    · simp [toRlpBytes, toBytes, h]
  refine ⟨rfl, by decide, by decide, ?_, ?_, ?_, ?_⟩
  · rw [hrlp]; exact fromBE_beBytes n
  · rw [hrlp]; exact beBytes_head_pos n
  · rw [hrlp]; exact beBytes_digits_lt n
  · rw [hrlp]; exact fun l hl he => beBytes_length_min n l hl he

/-- Witness for C4 at `n = 256` and the candidate representation `[1, 0]`. -/
theorem c4_minimal_big_endian_integer_rule_witness :
    fromBE (toRlpBytes 256) = 256 ∧
    (∃ d t, toRlpBytes 256 = d :: t ∧ d ≠ 0) ∧
    (toRlpBytes 256).length ≤ ([1, 0] : Bytes).length :=
  ⟨(c4_minimal_big_endian_integer_rule 256).2.2.2.1,
   (c4_minimal_big_endian_integer_rule 256).2.2.2.2.1 (by decide),
   (c4_minimal_big_endian_integer_rule 256).2.2.2.2.2.2 [1, 0]
     (by decide) (by decide)⟩

/-- Claim C5: packing a payload longer than the 742-byte capacity into the
bounded buffer for `headerRlp` fails with a capacity error and produces no
partial buffer (`none`); there is never silent truncation. -/
theorem c5_pack_capacity_error (b : Bytes) (h : b.length > 742) :
    BoundedVec.pack 742 b = none := by
  simp [BoundedVec.pack, h]

/-- Witness for C5: a 743-byte payload. -/
theorem c5_pack_capacity_error_witness :
    BoundedVec.pack 742 (List.replicate 743 0) = none :=
  c5_pack_capacity_error (List.replicate 743 0) (by simp)

/-- Claim C6: for every byte sequence `b` with `len b ≤ N`, packing `b` into
the `N`-capacity bounded buffer succeeds, unpacking returns exactly `b`, the
buffer stores `b` followed by `N - len b` zero bytes with logical length
`len b`, and the total stored size is `N`. -/
theorem c6_pack_unpack_roundtrip (N : ℕ) (b : Bytes) (h : b.length ≤ N) :
    ∃ v, BoundedVec.pack N b = some v ∧
      BoundedVec.unpack v = b ∧
      v.data = b ++ List.replicate (N - b.length) 0 ∧
      v.len = b.length ∧
      v.data.length = N := by
  refine ⟨_, by rw [BoundedVec.pack, if_neg (by omega)], ?_, rfl, rfl, ?_⟩
  · show (b ++ List.replicate (N - b.length) 0).take b.length = b
    rw [List.take_left]
  · show (b ++ List.replicate (N - b.length) 0).length = N
    rw [List.length_append, List.length_replicate]
    omega

/-- Witness for C6 at `N = 4`, `b = [9, 8]`. -/
theorem c6_pack_unpack_roundtrip_witness :
    ∃ v, BoundedVec.pack 4 [9, 8] = some v ∧
      BoundedVec.unpack v = [9, 8] ∧
      v.data = [9, 8] ++ List.replicate (4 - ([9, 8] : Bytes).length) 0 ∧
      v.len = ([9, 8] : Bytes).length ∧
      v.data.length = 4 :=
  c6_pack_unpack_roundtrip 4 [9, 8] (by decide)

/-- Claim C1 (code evaluation at the failing input): for a fetched block
that lacks a withdrawals root, the code sets presence to false but stores an
empty (length-0) value slot — `new FixedSizeArray(0, [])` — not the
structurally valid 32-byte all-zero placeholder the claim requires. -/
theorem c1_withdrawals_placeholder_is_empty :
    ((blockHeaderSummary sampleBlock).withdrawals_root)._is_some = false ∧
    ((blockHeaderSummary sampleBlock).withdrawals_root)._value = [] ∧
    ((blockHeaderSummary sampleBlock).withdrawals_root)._value.length = 0 ∧
    ((blockHeaderSummary sampleBlock).withdrawals_root)._value ≠
      List.replicate 32 0 :=
  ⟨rfl, rfl, rfl, by decide⟩

/-- Claim C2: with every later tail field absent (the spec's progressive
tail: a block without a base fee defines no later tail field either), an
absent base fee gives exactly 15 encoded fields; a defined base fee gives 16
fields whose 16th is its minimal-big-endian encoding, so a base fee of 0
yields the empty byte-string as field 16 — inclusion is decided by presence,
never by value falsiness. -/
theorem c2_base_fee_presence_not_falsiness (b : Block)
    (hw : b.withdrawalsRoot = none) (hb : b.blobGasUsed = none)
    (he : b.excessBlobGas = none) (hp : b.parentBeaconBlockRoot = none)
    (hr : b.requestsHash = none) :
    (b.baseFeePerGas = none → (headerData b).length = 15) ∧
    (∀ v, b.baseFeePerGas = some v → (headerData b).length = 16 ∧
      (headerData b).getLast? = some (toRlpBytes v)) ∧
    (b.baseFeePerGas = some 0 → (headerData b).getLast? = some []) := by
  refine ⟨?_, ?_, ?_⟩
  · intro h0
    simp [headerData, hw, hb, he, hp, hr, h0, List.filterMap_cons]
  · intro v hv
    constructor <;>
      simp [headerData, hw, hb, he, hp, hr, hv, List.filterMap_cons]
  · intro h0
    simp [headerData, hw, hb, he, hp, hr, h0, List.filterMap_cons, toRlpBytes]

/-- Witness for C2: the sample pre-London block (no tail fields), and the
same block with base fee defined as 0. -/
theorem c2_base_fee_presence_not_falsiness_witness :
    (headerData sampleBlock).length = 15 ∧
    (headerData { sampleBlock with baseFeePerGas := some 0 }).length = 16 ∧
    (headerData { sampleBlock with baseFeePerGas := some 0 }).getLast? =
      some [] :=
  ⟨(c2_base_fee_presence_not_falsiness sampleBlock rfl rfl rfl rfl rfl).1 rfl,
   ((c2_base_fee_presence_not_falsiness { sampleBlock with baseFeePerGas := some 0 }
      rfl rfl rfl rfl rfl).2.1 0 rfl).1,
   (c2_base_fee_presence_not_falsiness { sampleBlock with baseFeePerGas := some 0 }
      rfl rfl rfl rfl rfl).2.2 rfl⟩

/-- Claim C7: the nonce entry of the canonical field list (position 15, index
14) is always exactly 8 bytes: the source nonce left-padded with zero bytes
to 8 bytes when defined (the source nonce is at most 8 bytes, viem's `pad`
precondition), and exactly 8 zero bytes — never the empty byte-string — when
undefined. -/
theorem c7_nonce_always_eight_bytes (b : Block)
    (h : ∀ n, b.nonce = some n → n.length ≤ 8) :
    ∃ f, (headerData b)[14]? = some f ∧ f.length = 8 ∧
      (b.nonce = none → f = List.replicate 8 0) ∧
      (∀ n, b.nonce = some n → f = List.replicate (8 - n.length) 0 ++ n) := by
  cases hn : b.nonce with
  | none =>
    refine ⟨List.replicate 8 0, ?_, by simp, fun _ => rfl, ?_⟩
    · simp [headerData, hn, List.filterMap_cons]
    · intro n hcontra
      cases hcontra
  | some n =>
    refine ⟨pad 8 n, ?_, ?_, ?_, ?_⟩
    · simp [headerData, hn, List.filterMap_cons]
    · have hlen := h n hn
      simp [pad]
      omega
    · intro hcontra
      cases hcontra
    · intro m hm
      cases hm
      rfl

/-- Witness for C7: the sample block (nonce undefined) and a block with a
2-byte nonce. -/
theorem c7_nonce_always_eight_bytes_witness :
    (∃ f, (headerData sampleBlock)[14]? = some f ∧ f.length = 8 ∧
      (sampleBlock.nonce = none → f = List.replicate 8 0) ∧
      (∀ n, sampleBlock.nonce = some n →
        f = List.replicate (8 - n.length) 0 ++ n)) ∧
    (∃ f, (headerData { sampleBlock with nonce := some [171, 205] })[14]? =
        some f ∧ f.length = 8 ∧
      (({ sampleBlock with nonce := some [171, 205] } : Block).nonce = none →
        f = List.replicate 8 0) ∧
      (∀ n, ({ sampleBlock with nonce := some [171, 205] } : Block).nonce =
          some n → f = List.replicate (8 - n.length) 0 ++ n)) :=
  ⟨c7_nonce_always_eight_bytes sampleBlock (by intro n hn; cases hn),
   c7_nonce_always_eight_bytes { sampleBlock with nonce := some [171, 205] }
     (by intro n hn; cases hn; decide)⟩

/-- Claim C8: the derived summary `hash` is the 32-byte all-zero digest when
the source reports no hash, and exactly the reported 32-byte digest
otherwise. -/
theorem c8_hash_defaults_to_zero_digest (b : Block) :
    (b.hash = none → (blockHeaderSummary b).hash = List.replicate 32 0) ∧
    (∀ h32, b.hash = some h32 → h32.length = 32 →
      (blockHeaderSummary b).hash = h32) := by
  constructor
  · intro h0
    simp only [blockHeaderSummary, h0, Option.getD_none]
    decide
  · intro h32 hh hl
    simp [blockHeaderSummary, hh, parseBytes32, hl]

/-- Witness for C8: the sample block (no reported hash) and a block with a
concrete 32-byte hash. -/
theorem c8_hash_defaults_to_zero_digest_witness :
    (blockHeaderSummary sampleBlock).hash = List.replicate 32 0 ∧
    (blockHeaderSummary
      { sampleBlock with hash := some (List.replicate 32 9) }).hash =
      List.replicate 32 9 :=
  ⟨(c8_hash_defaults_to_zero_digest sampleBlock).1 rfl,
   (c8_hash_defaults_to_zero_digest
      { sampleBlock with hash := some (List.replicate 32 9) }).2
      (List.replicate 32 9) rfl (by simp)⟩

/-- Claim C9: the encoding is deterministic — for a fixed fetched block
record and chain identifier, any two evaluations of the header-encoding
transformation produce identical `HeaderCircuitInput` values (identical RLP
bytes, identical summary, identical chain id); the embedding is a pure
function of its inputs with no shared mutable state. -/
theorem c9_encoding_deterministic (chainId : Option ℕ) (b : Block)
    (r1 r2 : HeaderCircuitInput)
    (h1 : r1 = getBlockHeader chainId b) (h2 : r2 = getBlockHeader chainId b) :
    r1 = r2 ∧ r1.block_header_rlp = r2.block_header_rlp ∧
     HeaderCircuitInput.block_header_partial r1 =
       HeaderCircuitInput.block_header_partial r2 ∧
    r1.chain_id = r2.chain_id := by
  subst h1
  subst h2
  exact ⟨rfl, rfl, rfl, rfl⟩

/-- Witness for C9 at the sample block. -/
theorem c9_encoding_deterministic_witness :
    getBlockHeader none sampleBlock = getBlockHeader none sampleBlock :=
  (c9_encoding_deterministic none sampleBlock _ _ rfl rfl).1

/-- Claim C10: the presence flag of the summary's optional withdrawals root
agrees with the serialized header — it is true exactly when the encoded field
sequence contains one more entry than it would if the source's
`withdrawalsRoot` were absent, both being decided by the same presence
condition on the source field. -/
theorem c10_presence_flag_matches_serialized_field (b : Block) :
    ((blockHeaderSummary b).withdrawals_root)._is_some = true ↔
      (headerData b).length =
        (headerData { b with withdrawalsRoot := none }).length + 1 := by
  cases hbf : b.baseFeePerGas <;> cases hbg : b.blobGasUsed <;>
    cases heb : b.excessBlobGas <;> cases hpb : b.parentBeaconBlockRoot <;>
      cases hrh : b.requestsHash <;> cases hw : b.withdrawalsRoot <;>
        simp [blockHeaderSummary, headerData, hw, hbf, hbg, heb, hpb, hrh,
          List.filterMap_cons]

end NoirEthereum
